/-
Verification of the sorted data container of QCustomPlot
(src/src/datacontainer.h, template class QCPDataContainer).

Shallow embedding notes:
* The C++ DataType is generic with a `double sortKey() const` method.  We
  instantiate it with a concrete record `DataPoint` carrying an integer sort
  key and an integer payload value; `Int` is a faithful model of the totally
  ordered, non-NaN doubles that all the verified claims quantify over.
* `QVector<DataType>` is modelled as a `List DataPoint` together with an
  explicit allocation capacity `mCapacity : Nat`.  Reallocation growth of the
  underlying allocator is modelled as growing capacity to exactly the needed
  length; the capacity only feeds the hysteresis booleans of
  `performAutoSqueeze`, whose effect on the logical sequence is proved to be
  nil, so the allocator model does not influence any verified property.
* Iterators are modelled as indices into the live range `[mPreallocSize,
  mData.length)`; the end sentinel is the index `size`.
* `std::lower_bound` / `std::upper_bound` are modelled by their defining
  property on sorted ranges: the index of the first element that is not
  below (resp. strictly above) the probe key.
* `std::sort` (unstable, unspecified tie order) is modelled by an insertion
  sort; every verified statement about it only uses that the result is a
  sorted permutation of the input.  `std::inplace_merge` (stable) is modelled
  by a fuel-indexed structural merge taking from the left run on ties.
-/
import Mathlib

namespace QCP

/-- Data point model of the generic DataType template parameter: an ordering
key (`sortKey()` in the source) plus a payload distinguishing points. -/
structure DataPoint where
  sortKey : Int
  mainValue : Int
deriving Repr, DecidableEq

instance : Inhabited DataPoint := ⟨⟨0, 0⟩⟩

/-- Source `qcpLessThanSortKey(a, b)`: whether the sort key of `a` is less
than the sort key of `b`. -/
def qcpLessThanSortKey (a b : DataPoint) : Bool := a.sortKey < b.sortKey

/-- Source `DataType::fromSortKey(k)`: probe value with only the key set. -/
def fromSortKey (k : Int) : DataPoint := ⟨k, 0⟩

/-- Ordering relation on points induced by the sort key (ties allowed). -/
def keyLE (a b : DataPoint) : Prop := a.sortKey ≤ b.sortKey

instance : DecidableRel keyLE := fun a b => inferInstanceAs (Decidable (a.sortKey ≤ b.sortKey))

/-- Model of `std::sort` over points: insertion of one point into a run. -/
def insertSorted (p : DataPoint) : List DataPoint → List DataPoint
  | [] => [p]
  | q :: qs => if qcpLessThanSortKey p q then p :: q :: qs else q :: insertSorted p qs

/-- Model of `std::sort(l, qcpLessThanSortKey)`: a sorted permutation of the
input (the source sort is unstable, tie order unspecified). -/
def sortPoints : List DataPoint → List DataPoint
  | [] => []
  | p :: ps => insertSorted p (sortPoints ps)

/-- Fuel-indexed stable merge of two runs, as `std::inplace_merge` with
comparison `qcpLessThanSortKey`: an element of the right run moves before a
left-run element only when its key is strictly smaller. -/
def mergeRunsAux : Nat → List DataPoint → List DataPoint → List DataPoint
  | 0, xs, ys => xs ++ ys
  | _ + 1, [], ys => ys
  | _ + 1, x :: xs, [] => x :: xs
  | n + 1, x :: xs, y :: ys =>
    if qcpLessThanSortKey y x then y :: mergeRunsAux n (x :: xs) ys
    else x :: mergeRunsAux n xs (y :: ys)

/-- Model of `std::inplace_merge(first, middle, last, qcpLessThanSortKey)`
applied to the two adjacent runs. -/
def mergeRuns (xs ys : List DataPoint) : List DataPoint :=
  mergeRunsAux (xs.length + ys.length) xs ys

/-- Index of the first element of `l` whose key is not below `k`: result of
`std::lower_bound(l, fromSortKey k, qcpLessThanSortKey)` on a sorted range
(`l.length` when no such element exists, matching the end iterator). -/
def lowerBoundIdx (l : List DataPoint) (k : Int) : Nat :=
  (l.takeWhile fun p => qcpLessThanSortKey p (fromSortKey k)).length

/-- Index of the first element of `l` whose key is strictly above `k`: result
of `std::upper_bound(l, fromSortKey k, qcpLessThanSortKey)` on a sorted
range. -/
def upperBoundIdx (l : List DataPoint) (k : Int) : Nat :=
  (l.takeWhile fun p => ! qcpLessThanSortKey (fromSortKey k) p).length

/-- Insertion into a list at a given position, as `QVector::insert` at an
iterator offset. -/
def insertAt (l : List DataPoint) (n : Nat) (a : DataPoint) : List DataPoint :=
  l.take n ++ a :: l.drop n

/-- State of `QCPDataContainer<DataType>`: the buffer `mData`, the
preallocation (front slack) size, the preallocation growth iteration, the
auto-squeeze flag, and the allocation capacity of the buffer. -/
structure QCPDataContainer where
  mAutoSqueeze : Bool
  mData : List DataPoint
  mPreallocSize : Nat
  mPreallocIteration : Nat
  mCapacity : Nat
deriving Repr, DecidableEq

namespace QCPDataContainer

/-- Default-constructed container: `QCPDataContainer()`. -/
def init : QCPDataContainer := ⟨true, [], 0, 0, 0⟩

/-- Source `size()`: `mData.size() - mPreallocSize`. -/
def size (c : QCPDataContainer) : Nat := c.mData.length - c.mPreallocSize

/-- Source `isEmpty()`: `size() == 0`. -/
def isEmpty (c : QCPDataContainer) : Bool := size c == 0

/-- Live logical sequence, the sub-range `[mPreallocSize, mData.length)`
between `begin()` and `end()`. -/
def live (c : QCPDataContainer) : List DataPoint := c.mData.drop c.mPreallocSize

/-- Structural well-formedness: the front slack never exceeds the buffer
length (invariant I3 of the specification). -/
def WF (c : QCPDataContainer) : Prop := c.mPreallocSize ≤ c.mData.length

/-- Sort invariant I1: the live range is non-decreasing under the sort key. -/
def SortedLive (c : QCPDataContainer) : Prop := (live c).Sorted keyLE

instance (c : QCPDataContainer) : Decidable (WF c) :=
  inferInstanceAs (Decidable (c.mPreallocSize ≤ c.mData.length))

instance (c : QCPDataContainer) : Decidable (SortedLive c) :=
  inferInstanceAs (Decidable ((live c).Sorted keyLE))

/-- Growth schedule term of `preallocateGrow`:
`(1u << qBound(4, mPreallocIteration+4, 15)) - 12`, the amount added on top
of the requested minimum slack. -/
def preallocSchedule (i : Nat) : Nat := 2 ^ (max 4 (min (i + 4) 15)) - 12

/-- Source `preallocateGrow(minimumPreallocSize)`: grow the front slack to
`minimum + (1u << qBound(4, mPreallocIteration+4, 15)) - 12`, shifting the
live data towards the back of the enlarged buffer via `copy_backward`. -/
def preallocateGrow (c : QCPDataContainer) (minimumPreallocSize : Nat) : QCPDataContainer :=
  if minimumPreallocSize ≤ c.mPreallocSize then c
  else
    let newPreallocSize := minimumPreallocSize + preallocSchedule c.mPreallocIteration
    let sizeDifference := newPreallocSize - c.mPreallocSize
    let resized := c.mData ++ List.replicate sizeDifference default
    { c with
      mData := resized.take newPreallocSize ++ c.mData.drop c.mPreallocSize,
      mPreallocSize := newPreallocSize,
      mPreallocIteration := c.mPreallocIteration + 1,
      mCapacity := max c.mCapacity (c.mData.length + sizeDifference) }

/-- Source `squeeze(preAllocation, postAllocation)`: if `preAllocation`,
copy the live range down to offset 0 (when slack exists), truncate to
`size()` and reset slack and growth iteration; if `postAllocation`, release
unused trailing capacity (`QVector::squeeze`). -/
def squeeze (c : QCPDataContainer) (preAllocation postAllocation : Bool) : QCPDataContainer :=
  let c1 :=
    if preAllocation then
      let c2 :=
        if 0 < c.mPreallocSize then
          { c with mData := live c, mPreallocSize := 0 }
        else c
      { c2 with mPreallocIteration := 0 }
    else c
  if postAllocation then { c1 with mCapacity := c1.mData.length } else c1

/-- Source `performAutoSqueeze()`: hysteresis decision whether to shrink the
preallocation and postallocation pools.  The comparisons against
`usedSize*1.5` are exact
double comparisons of integers, rendered here over rationals cleared of
denominators (`x > 1.5*y ↔ 2*x > 3*y`). -/
def performAutoSqueeze (c : QCPDataContainer) : QCPDataContainer :=
  let totalAlloc := c.mCapacity
  let postAllocSize := totalAlloc - c.mData.length
  let usedSize := size c
  let shrinkPostAllocation :=
    if 650000 < totalAlloc then decide (3 * usedSize < 2 * postAllocSize)
    else if 1000 < totalAlloc then decide (5 * usedSize < postAllocSize)
    else false
  let shrinkPreAllocation :=
    if 650000 < totalAlloc then decide (usedSize < 10 * c.mPreallocSize)
    else if 1000 < totalAlloc then decide (3 * usedSize < 2 * c.mPreallocSize)
    else false
  if shrinkPreAllocation || shrinkPostAllocation then
    squeeze c shrinkPreAllocation shrinkPostAllocation
  else c

/-- The `if (mAutoSqueeze) performAutoSqueeze();` epilogue shared by all
removal operations. -/
def autoSqueezeCheck (c : QCPDataContainer) : QCPDataContainer :=
  if c.mAutoSqueeze then performAutoSqueeze c else c

/-- Source `clear()`: drop all contents, reset slack and growth iteration. -/
def clear (c : QCPDataContainer) : QCPDataContainer :=
  { c with mData := [], mPreallocSize := 0, mPreallocIteration := 0, mCapacity := 0 }

/-- Source `sort()`: re-sort the live range `[begin(), end())` in place. -/
def sortLive (c : QCPDataContainer) : QCPDataContainer :=
  { c with mData := c.mData.take c.mPreallocSize ++ sortPoints (live c) }

/-- Source `set(const QVector<DataType>&, bool alreadySorted)`: adopt `data`
as the whole buffer, reset slack and growth iteration, sort unless
`alreadySorted`. -/
def setVector (c : QCPDataContainer) (data : List DataPoint) (alreadySorted : Bool) : QCPDataContainer :=
  let c1 := { c with mData := data, mPreallocSize := 0, mPreallocIteration := 0,
                     mCapacity := data.length }
  if alreadySorted then c1 else sortLive c1

/-- Source `add(const QVector<DataType>&, bool alreadySorted)`: no-op on
empty input, `set` on an empty container, otherwise prepend into the front
slack (when `alreadySorted` and all new keys are at or below the current
minimum) or append, sorting the appended suffix when not `alreadySorted`,
and merging the two adjacent runs when they interleave. -/
def addVector (c : QCPDataContainer) (data : List DataPoint) (alreadySorted : Bool) : QCPDataContainer :=
  if data.isEmpty then c
  else if isEmpty c then setVector c data alreadySorted
  else
    let n := data.length
    if alreadySorted && decide (0 < size c) &&
        ! qcpLessThanSortKey ((live c).headD default) (data.getLastD default) then
      let c1 := if c.mPreallocSize < n then preallocateGrow c n else c
      { c1 with
        mPreallocSize := c1.mPreallocSize - n,
        mData := c1.mData.take (c1.mPreallocSize - n) ++ data ++ c1.mData.drop c1.mPreallocSize }
    else
      let newRun := if alreadySorted then data else sortPoints data
      let oldLive := live c
      let appended :=
        if decide (0 < size c) &&
            ! qcpLessThanSortKey (oldLive.getLastD default) (newRun.headD default) then
          mergeRuns oldLive newRun
        else oldLive ++ newRun
      { c with mData := c.mData.take c.mPreallocSize ++ appended,
               mCapacity := max c.mCapacity (c.mData.length + n) }

/-- Source `add(const QCPDataContainer<DataType>&)`: like the vector
overload restricted to the argument's live range, which is sorted by the
argument's own class invariant, with no suffix sort and no empty-self
shortcut. -/
def addContainer (c dataC : QCPDataContainer) : QCPDataContainer :=
  if isEmpty dataC then c
  else
    let n := size dataC
    let dl := live dataC
    if decide (0 < size c) &&
        ! qcpLessThanSortKey ((live c).headD default) (dl.getLastD default) then
      let c1 := if c.mPreallocSize < n then preallocateGrow c n else c
      { c1 with
        mPreallocSize := c1.mPreallocSize - n,
        mData := c1.mData.take (c1.mPreallocSize - n) ++ dl ++ c1.mData.drop c1.mPreallocSize }
    else
      let oldLive := live c
      let appended :=
        if decide (0 < size c) &&
            ! qcpLessThanSortKey (oldLive.getLastD default) (dl.headD default) then
          mergeRuns oldLive dl
        else oldLive ++ dl
      { c with mData := c.mData.take c.mPreallocSize ++ appended,
               mCapacity := max c.mCapacity (c.mData.length + n) }

/-- Source `set(const QCPDataContainer<DataType>&)`: `clear(); add(data);`. -/
def setContainer (c dataC : QCPDataContainer) : QCPDataContainer :=
  addContainer (clear c) dataC

/-- Source `add(const DataType&)`: append when the new key is at or above
the current maximum, prepend into the front slack when strictly below the
current minimum, otherwise insert at the lower bound. -/
def addOne (c : QCPDataContainer) (data : DataPoint) : QCPDataContainer :=
  if isEmpty c || ! qcpLessThanSortKey data ((live c).getLastD default) then
    { c with mData := c.mData ++ [data], mCapacity := max c.mCapacity (c.mData.length + 1) }
  else if qcpLessThanSortKey data ((live c).headD default) then
    let c1 := if c.mPreallocSize < 1 then preallocateGrow c 1 else c
    { c1 with
      mPreallocSize := c1.mPreallocSize - 1,
      mData := c1.mData.set (c1.mPreallocSize - 1) data }
  else
    let i := lowerBoundIdx (live c) data.sortKey
    { c with mData := insertAt c.mData (c.mPreallocSize + i) data,
             mCapacity := max c.mCapacity (c.mData.length + 1) }

/-- Bookkeeping part of `removeBefore(sortKey)`: the count of elements below
the lower bound is added to the preallocation block, nothing is erased. -/
def removeBeforeMid (c : QCPDataContainer) (sortKey : Int) : QCPDataContainer :=
  { c with mPreallocSize := c.mPreallocSize + lowerBoundIdx (live c) sortKey }

/-- Source `removeBefore(sortKey)`: lazy front trim, then the auto-squeeze
check. -/
def removeBefore (c : QCPDataContainer) (sortKey : Int) : QCPDataContainer :=
  autoSqueezeCheck (removeBeforeMid c sortKey)

/-- Source `removeAfter(sortKey)`: erase `[upper_bound(sortKey), end())`,
then the auto-squeeze check. -/
def removeAfter (c : QCPDataContainer) (sortKey : Int) : QCPDataContainer :=
  autoSqueezeCheck
    { c with mData := c.mData.take (c.mPreallocSize + upperBoundIdx (live c) sortKey) }

/-- Source `remove(sortKeyFrom, sortKeyTo)`: no-op when the interval is
malformed or the container empty, else erase
`[lower_bound(from), upper_bound(to))`, then the auto-squeeze check. -/
def removeRange (c : QCPDataContainer) (sortKeyFrom sortKeyTo : Int) : QCPDataContainer :=
  if decide (sortKeyTo ≤ sortKeyFrom) || isEmpty c then c
  else
    let i := lowerBoundIdx (live c) sortKeyFrom
    let j := i + upperBoundIdx ((live c).drop i) sortKeyTo
    autoSqueezeCheck
      { c with mData := c.mData.take (c.mPreallocSize + i) ++ c.mData.drop (c.mPreallocSize + j) }

/-- Erasure part of `remove(sortKey)`: if the lower bound hits an element
with exactly the given key, fold it into the front slack when it is the
first live element, erase it physically otherwise. -/
def removeKeyMid (c : QCPDataContainer) (sortKey : Int) : QCPDataContainer :=
  let i := lowerBoundIdx (live c) sortKey
  if decide (i < size c) && (((live c).getD i default).sortKey == sortKey) then
    if i = 0 then { c with mPreallocSize := c.mPreallocSize + 1 }
    else { c with mData := c.mData.eraseIdx (c.mPreallocSize + i) }
  else c

/-- Source `remove(sortKey)`: single-key removal, then the auto-squeeze
check. -/
def removeKey (c : QCPDataContainer) (sortKey : Int) : QCPDataContainer :=
  autoSqueezeCheck (removeKeyMid c sortKey)

/-- Source `findBegin(sortKey, expandedRange)`: the lower bound, stepped one
element towards the front when `expandedRange` and the bound is not already
`constBegin()`; the end sentinel on an empty container. -/
def findBegin (c : QCPDataContainer) (sortKey : Int) (expandedRange : Bool) : Nat :=
  if isEmpty c then size c
  else
    let i := lowerBoundIdx (live c) sortKey
    if expandedRange && decide (i ≠ 0) then i - 1 else i

/-- Source `findEnd(sortKey, expandedRange)`: the upper bound, stepped one
element towards the back when `expandedRange` and the bound is not already
`constEnd()`; the end sentinel on an empty container. -/
def findEnd (c : QCPDataContainer) (sortKey : Int) (expandedRange : Bool) : Nat :=
  if isEmpty c then size c
  else
    let i := upperBoundIdx (live c) sortKey
    if expandedRange && decide (i ≠ size c) then i + 1 else i

/-- Source `at(index)`: `constBegin() + qBound(0, index, size())`, as an
offset into the live range with `size` the end sentinel. -/
def atIndex (c : QCPDataContainer) (index : Int) : Nat :=
  (max 0 (min index (size c : Int))).toNat

end QCPDataContainer

/-- Reflexivity of the key order. -/
lemma keyLE_refl (a : DataPoint) : keyLE a a := le_refl _

/-- Transitivity of the key order. -/
lemma keyLE_trans {a b c : DataPoint} (h1 : keyLE a b) (h2 : keyLE b c) : keyLE a c :=
  le_trans h1 h2

/-- Taking as many elements as the `takeWhile` run recovers the run. -/
lemma take_len_takeWhile {α : Type} (p : α → Bool) :
    ∀ l : List α, l.take (l.takeWhile p).length = l.takeWhile p
  | [] => rfl
  | a :: l => by
    by_cases h : p a
    · simp [List.takeWhile_cons, h, take_len_takeWhile p l]
    · simp [List.takeWhile_cons, h]

/-- Dropping as many elements as the `takeWhile` run yields `dropWhile`. -/
lemma drop_len_takeWhile {α : Type} (p : α → Bool) :
    ∀ l : List α, l.drop (l.takeWhile p).length = l.dropWhile p
  | [] => rfl
  | a :: l => by
    by_cases h : p a
    · simp [List.takeWhile_cons, List.dropWhile_cons, h, drop_len_takeWhile p l]
    · simp [List.takeWhile_cons, List.dropWhile_cons, h]

/-- A `takeWhile` run extends through a first block all of whose elements
satisfy the predicate. -/
lemma takeWhile_append_all {α : Type} (p : α → Bool) {l₁ : List α} (l₂ : List α)
    (h : ∀ a ∈ l₁, p a = true) : (l₁ ++ l₂).takeWhile p = l₁ ++ l₂.takeWhile p := by
  induction l₁ with
  | nil => simp
  | cons a l ih =>
    have ha := h a (by simp)
    simp only [List.cons_append, List.takeWhile_cons, ha, if_true]
    exact congrArg (a :: ·) (ih fun b hb => h b (by simp [hb]))

/-- Writing a cell and dropping up to it exposes the written value. -/
lemma drop_set_cons {α : Type} (a : α) :
    ∀ (l : List α) (i : Nat), i < l.length → (l.set i a).drop i = a :: l.drop (i + 1)
  | [], i, h => by simp at h
  | _ :: l, 0, _ => by simp
  | b :: l, i + 1, h => by
    simpa using drop_set_cons a l i (by simpa using h)

/-- Erasure at an offset commutes with dropping the offset. -/
lemma drop_eraseIdx {α : Type} :
    ∀ (l : List α) (n i : Nat), (l.eraseIdx (n + i)).drop n = (l.drop n).eraseIdx i
  | _, 0, _ => by simp
  | [], _ + 1, _ => by simp [List.eraseIdx]
  | a :: l, n + 1, i => by
    have : n + 1 + i = (n + i) + 1 := by omega
    rw [this]
    simpa using drop_eraseIdx l n i

/-- Indexed access with default is the head of the dropped suffix. -/
lemma getD_eq_headD_drop {α : Type} [Inhabited α] :
    ∀ (l : List α) (i : Nat), l.getD i default = (l.drop i).headD default
  | [], i => by simp
  | _ :: _, 0 => rfl
  | _ :: l, i + 1 => by simp [getD_eq_headD_drop l i]

/-- The defaulted last element of a non-empty list is a member. -/
lemma getLastD_mem {α : Type} :
    ∀ (l : List α) (d : α), l ≠ [] → l.getLastD d ∈ l
  | [], _, h => absurd rfl h
  | [a], _, _ => by simp [List.getLastD]
  | a :: b :: l, d, _ => by
    have := getLastD_mem (b :: l) a (by simp)
    simpa [List.getLastD_cons] using Or.inr this

/-- Head of a sorted list is a lower bound for its members. -/
lemma sorted_headD_le {l : List DataPoint} (hs : l.Sorted keyLE) {a : DataPoint}
    (ha : a ∈ l) : keyLE (l.headD default) a := by
  cases l with
  | nil => cases ha
  | cons b t =>
    rcases List.mem_cons.mp ha with rfl | h
    · exact keyLE_refl a
    · exact (List.pairwise_cons.mp hs).1 a h

/-- Defaulted last element of a sorted list is an upper bound for members. -/
lemma sorted_le_getLastD :
    ∀ (l : List DataPoint) (d : DataPoint), l.Sorted keyLE →
      ∀ a ∈ l, keyLE a (l.getLastD d)
  | [], _, _, a, ha => absurd ha (by simp)
  | b :: t, d, hs, a, ha => by
    rw [List.getLastD_cons]
    rcases List.mem_cons.mp ha with rfl | h
    · cases t with
      | nil => exact keyLE_refl a
      | cons c u =>
        exact (List.pairwise_cons.mp hs).1 _ (getLastD_mem (c :: u) a (by simp))
    · exact sorted_le_getLastD t b (List.Sorted.of_cons hs) a h

/-- On a sorted list, `takeWhile` for a downward-closed predicate is
`filter`. -/
lemma sorted_takeWhile_eq_filter (p : DataPoint → Bool)
    (hp : ∀ a b : DataPoint, a.sortKey ≤ b.sortKey → p b = true → p a = true) :
    ∀ {l : List DataPoint}, l.Sorted keyLE → l.takeWhile p = l.filter p := by
  intro l
  induction l with
  | nil => intro _; rfl
  | cons a t ih =>
    intro hs
    by_cases h : p a
    · simp [List.takeWhile_cons, List.filter_cons, h, ih (List.Sorted.of_cons hs)]
    · simp only [Bool.not_eq_true] at h
      simp only [List.takeWhile_cons, List.filter_cons, h, Bool.false_eq_true, if_false]
      refine (List.filter_eq_nil_iff.mpr fun b hb hpb => ?_).symm
      have : p a = true := hp a b ((List.pairwise_cons.mp hs).1 b hb) hpb
      rw [h] at this
      exact Bool.false_ne_true this

/-- On a sorted list, `dropWhile` for a downward-closed predicate is the
`filter` of the negated predicate. -/
lemma sorted_dropWhile_eq_filter (p : DataPoint → Bool)
    (hp : ∀ a b : DataPoint, a.sortKey ≤ b.sortKey → p b = true → p a = true) :
    ∀ {l : List DataPoint}, l.Sorted keyLE → l.dropWhile p = l.filter (fun x => ! p x) := by
  intro l
  induction l with
  | nil => intro _; rfl
  | cons a t ih =>
    intro hs
    by_cases h : p a
    · simp [List.dropWhile_cons, List.filter_cons, h, ih (List.Sorted.of_cons hs)]
    · simp only [Bool.not_eq_true] at h
      simp only [List.dropWhile_cons, List.filter_cons, h, Bool.false_eq_true, if_false,
        Bool.not_false, if_true]
      refine congrArg (a :: ·) (List.filter_eq_self.mpr fun b hb => ?_).symm
      simp only [Bool.not_eq_true']
      by_contra hpb
      have : p a = true := hp a b ((List.pairwise_cons.mp hs).1 b hb) (by simpa using hpb)
      rw [h] at this
      exact Bool.false_ne_true this

/-- Unfolding of the point comparison into the key order. -/
lemma qcpLt_true {a b : DataPoint} (h : qcpLessThanSortKey a b = true) :
    a.sortKey < b.sortKey := by
  simpa [qcpLessThanSortKey] using h

/-- Negated point comparison gives the reverse non-strict order. -/
lemma qcpLt_false {a b : DataPoint} (h : qcpLessThanSortKey a b = false) :
    b.sortKey ≤ a.sortKey := by
  simp only [qcpLessThanSortKey, decide_eq_false_iff_not, Int.not_lt] at h
  exact h

/-- The fuel-indexed merge permutes the concatenation of its runs. -/
lemma mergeRunsAux_perm :
    ∀ (n : Nat) (xs ys : List DataPoint), List.Perm (mergeRunsAux n xs ys) (xs ++ ys)
  | 0, _, _ => List.Perm.refl _
  | _ + 1, [], ys => by simp [mergeRunsAux]
  | _ + 1, _ :: _, [] => by simp [mergeRunsAux]
  | n + 1, x :: xs, y :: ys => by
    simp only [mergeRunsAux]
    by_cases hc : qcpLessThanSortKey y x
    · rw [if_pos hc]
      exact ((mergeRunsAux_perm n (x :: xs) ys).cons y).trans List.perm_middle.symm
    · rw [if_neg hc]
      exact (mergeRunsAux_perm n xs (y :: ys)).cons x

/-- The fuel-indexed merge of two sorted runs is sorted. -/
lemma mergeRunsAux_sorted :
    ∀ (n : Nat) (xs ys : List DataPoint), xs.length + ys.length ≤ n →
      xs.Sorted keyLE → ys.Sorted keyLE → (mergeRunsAux n xs ys).Sorted keyLE
  | 0, xs, ys, h, _, _ => by
    have hx : xs = [] := List.eq_nil_of_length_eq_zero (by omega)
    have hy : ys = [] := List.eq_nil_of_length_eq_zero (by omega)
    simp [mergeRunsAux, hx, hy]
  | _ + 1, [], ys, _, _, hy => by simpa [mergeRunsAux] using hy
  | _ + 1, x :: xs, [], _, hx, _ => by simpa [mergeRunsAux] using hx
  | n + 1, x :: xs, y :: ys, h, hx, hy => by
    simp only [mergeRunsAux]
    by_cases hc : qcpLessThanSortKey y x
    · rw [if_pos hc]
      refine List.pairwise_cons.mpr ⟨fun b hb => ?_,
        mergeRunsAux_sorted n (x :: xs) ys (by simp at h ⊢; omega) hx (List.Sorted.of_cons hy)⟩
      have hmem : b ∈ (x :: xs) ++ ys := (mergeRunsAux_perm n (x :: xs) ys).subset hb
      rcases List.mem_append.mp hmem with hbx | hby
      · have h1 : keyLE x b := sorted_headD_le hx hbx
        exact le_trans (le_of_lt (qcpLt_true (by simpa using hc))) h1
      · exact (List.pairwise_cons.mp hy).1 b hby
    · rw [if_neg hc]
      refine List.pairwise_cons.mpr ⟨fun b hb => ?_,
        mergeRunsAux_sorted n xs (y :: ys) (by simp at h ⊢; omega) (List.Sorted.of_cons hx) hy⟩
      have hmem : b ∈ xs ++ (y :: ys) := (mergeRunsAux_perm n xs (y :: ys)).subset hb
      rcases List.mem_append.mp hmem with hbx | hby
      · exact (List.pairwise_cons.mp hx).1 b hbx
      · have hxy : keyLE x y := qcpLt_false (by simpa using hc)
        exact le_trans hxy (sorted_headD_le hy hby)

/-- The modelled `inplace_merge` permutes the concatenation of its runs. -/
lemma mergeRuns_perm (xs ys : List DataPoint) : List.Perm (mergeRuns xs ys) (xs ++ ys) :=
  mergeRunsAux_perm _ xs ys

/-- The modelled `inplace_merge` of two sorted runs is sorted. -/
lemma mergeRuns_sorted {xs ys : List DataPoint} (hx : xs.Sorted keyLE)
    (hy : ys.Sorted keyLE) : (mergeRuns xs ys).Sorted keyLE :=
  mergeRunsAux_sorted _ xs ys (le_refl _) hx hy

/-- Inserting into a run permutes consing. -/
lemma insertSorted_perm (p : DataPoint) :
    ∀ l : List DataPoint, List.Perm (insertSorted p l) (p :: l)
  | [] => List.Perm.refl _
  | q :: qs => by
    simp only [insertSorted]
    by_cases h : qcpLessThanSortKey p q
    · rw [if_pos h]
    · rw [if_neg h]
      exact ((insertSorted_perm p qs).cons q).trans (List.Perm.swap p q qs)

/-- Inserting into a sorted run keeps it sorted. -/
lemma insertSorted_sorted (p : DataPoint) :
    ∀ {l : List DataPoint}, l.Sorted keyLE → (insertSorted p l).Sorted keyLE
  | [], _ => by simp [insertSorted]
  | q :: qs, hs => by
    simp only [insertSorted]
    by_cases h : qcpLessThanSortKey p q
    · rw [if_pos h]
      refine List.pairwise_cons.mpr ⟨fun b hb => ?_, hs⟩
      have hpq : p.sortKey < q.sortKey := qcpLt_true (by simpa using h)
      rcases List.mem_cons.mp hb with rfl | hbq
      · exact le_of_lt hpq
      · exact le_trans (le_of_lt hpq) ((List.pairwise_cons.mp hs).1 b hbq)
    · rw [if_neg h]
      refine List.pairwise_cons.mpr
        ⟨fun b hb => ?_, insertSorted_sorted p (List.Sorted.of_cons hs)⟩
      have hqp : keyLE q p := qcpLt_false (by simpa using h)
      rcases List.mem_cons.mp ((insertSorted_perm p qs).subset hb) with rfl | hbq
      · exact hqp
      · exact (List.pairwise_cons.mp hs).1 b hbq

/-- The modelled `std::sort` permutes its input. -/
lemma sortPoints_perm : ∀ l : List DataPoint, List.Perm (sortPoints l) l
  | [] => List.Perm.refl _
  | p :: ps => (insertSorted_perm p (sortPoints ps)).trans ((sortPoints_perm ps).cons p)

/-- The modelled `std::sort` output is sorted. -/
lemma sortPoints_sorted : ∀ l : List DataPoint, (sortPoints l).Sorted keyLE
  | [] => List.sorted_nil
  | p :: ps => insertSorted_sorted p (sortPoints_sorted ps)

/-- The lower bound never exceeds the range length. -/
lemma lowerBoundIdx_le_length (l : List DataPoint) (k : Int) :
    lowerBoundIdx l k ≤ l.length := by
  unfold lowerBoundIdx
  exact List.Sublist.length_le (List.takeWhile_sublist _)

/-- The upper bound never exceeds the range length. -/
lemma upperBoundIdx_le_length (l : List DataPoint) (k : Int) :
    upperBoundIdx l k ≤ l.length := by
  unfold upperBoundIdx
  exact List.Sublist.length_le (List.takeWhile_sublist _)

/-- On a sorted range, dropping up to the lower bound of `k` keeps exactly
the elements with key at least `k`. -/
lemma drop_lowerBoundIdx {l : List DataPoint} (k : Int) (hs : l.Sorted keyLE) :
    l.drop (lowerBoundIdx l k) = l.filter fun p => decide (k ≤ p.sortKey) := by
  unfold lowerBoundIdx
  rw [drop_len_takeWhile]
  rw [sorted_dropWhile_eq_filter (fun p => qcpLessThanSortKey p (fromSortKey k))
    (fun a b hab hb => by
      simp only [qcpLessThanSortKey, fromSortKey, decide_eq_true_eq] at hb ⊢
      omega) hs]
  refine List.filter_congr fun x _ => ?_
  simp only [qcpLessThanSortKey, fromSortKey, ← decide_not]
  exact decide_eq_decide.mpr Int.not_lt

/-- On a sorted range, taking up to the lower bound of `k` keeps exactly
the elements with key strictly below `k`. -/
lemma take_lowerBoundIdx {l : List DataPoint} (k : Int) (hs : l.Sorted keyLE) :
    l.take (lowerBoundIdx l k) = l.filter fun p => decide (p.sortKey < k) := by
  unfold lowerBoundIdx
  rw [take_len_takeWhile]
  rw [sorted_takeWhile_eq_filter (fun p => qcpLessThanSortKey p (fromSortKey k))
    (fun a b hab hb => by
      simp only [qcpLessThanSortKey, fromSortKey, decide_eq_true_eq] at hb ⊢
      omega) hs]
  exact List.filter_congr fun x _ => by simp [qcpLessThanSortKey, fromSortKey]

/-- On a sorted range, taking up to the upper bound of `k` keeps exactly
the elements with key at most `k`. -/
lemma take_upperBoundIdx {l : List DataPoint} (k : Int) (hs : l.Sorted keyLE) :
    l.take (upperBoundIdx l k) = l.filter fun p => decide (p.sortKey ≤ k) := by
  unfold upperBoundIdx
  rw [take_len_takeWhile]
  rw [sorted_takeWhile_eq_filter (fun p => ! qcpLessThanSortKey (fromSortKey k) p)
    (fun a b hab hb => by
      simp only [qcpLessThanSortKey, fromSortKey, Bool.not_eq_true',
        decide_eq_false_iff_not, Int.not_lt] at hb ⊢
      omega) hs]
  refine List.filter_congr fun x _ => ?_
  simp only [qcpLessThanSortKey, fromSortKey, ← decide_not]
  exact decide_eq_decide.mpr Int.not_lt

namespace QCPDataContainer

/-- The live range has exactly `size` elements. -/
lemma length_live (c : QCPDataContainer) : (live c).length = size c := by
  simp [live, size]

/-- An empty container has an empty live range. -/
lemma live_eq_nil_of_size_eq_zero {c : QCPDataContainer} (h : size c = 0) : live c = [] :=
  List.eq_nil_of_length_eq_zero ((length_live c).trans h)

/-- The growth schedule term is at least 4 (its floor, `16 - 12`). -/
lemma preallocSchedule_ge (i : Nat) : 4 ≤ preallocSchedule i := by
  unfold preallocSchedule
  have h16 : (16 : Nat) ≤ 2 ^ (max 4 (min (i + 4) 15)) := by
    calc (16 : Nat) = 2 ^ 4 := by norm_num
    _ ≤ 2 ^ (max 4 (min (i + 4) 15)) := Nat.pow_le_pow_right (by omega) (le_max_left _ _)
  omega

/-- Preallocation growth never moves the live range. -/
lemma preallocateGrow_live {c : QCPDataContainer} (m : Nat) (hwf : WF c) :
    live (preallocateGrow c m) = live c := by
  unfold preallocateGrow
  by_cases h : m ≤ c.mPreallocSize
  · rw [if_pos h]
  · rw [if_neg h]
    simp only [live]
    refine List.drop_left' ?_
    rw [List.length_take, List.length_append, List.length_replicate]
    have h4 := preallocSchedule_ge c.mPreallocIteration
    have hwf' : c.mPreallocSize ≤ c.mData.length := hwf
    omega

/-- Preallocation growth preserves structural well-formedness. -/
lemma preallocateGrow_WF {c : QCPDataContainer} (m : Nat) (hwf : WF c) :
    WF (preallocateGrow c m) := by
  unfold preallocateGrow
  by_cases h : m ≤ c.mPreallocSize
  · rw [if_pos h]; exact hwf
  · rw [if_neg h]
    simp only [WF, List.length_append, List.length_take, List.length_replicate]
    have h4 := preallocSchedule_ge c.mPreallocIteration
    have hwf' : c.mPreallocSize ≤ c.mData.length := hwf
    omega

/-- Preallocation growth reaches the requested minimum slack. -/
lemma preallocateGrow_le (c : QCPDataContainer) (m : Nat) :
    m ≤ (preallocateGrow c m).mPreallocSize := by
  unfold preallocateGrow
  by_cases h : m ≤ c.mPreallocSize
  · rw [if_pos h]; exact h
  · rw [if_neg h]
    have h4 := preallocSchedule_ge c.mPreallocIteration
    simp only
    omega

/-- Squeezing never moves the live range. -/
lemma squeeze_live (c : QCPDataContainer) (b1 b2 : Bool) :
    live (squeeze c b1 b2) = live c := by
  unfold squeeze
  split_ifs with h1 h2 h3 h4 <;> simp [live]

/-- Squeezing never changes the logical size. -/
lemma squeeze_size (c : QCPDataContainer) (b1 b2 : Bool) :
    size (squeeze c b1 b2) = size c := by
  unfold squeeze size
  split_ifs with h1 h2 h3 h4 <;> simp [live]

/-- Squeezing preserves structural well-formedness. -/
lemma squeeze_WF {c : QCPDataContainer} (b1 b2 : Bool) (hwf : WF c) :
    WF (squeeze c b1 b2) := by
  unfold squeeze WF
  split_ifs with h1 h2 h3 h4 <;> simp <;> exact hwf

/-- Squeezing does not touch the auto-squeeze flag. -/
lemma squeeze_flag (c : QCPDataContainer) (b1 b2 : Bool) :
    (squeeze c b1 b2).mAutoSqueeze = c.mAutoSqueeze := by
  unfold squeeze
  split_ifs <;> rfl

/-- The auto-squeeze decision never moves the live range. -/
lemma performAutoSqueeze_live (c : QCPDataContainer) :
    live (performAutoSqueeze c) = live c := by
  unfold performAutoSqueeze
  dsimp only
  split_ifs <;> simp [squeeze_live]

/-- The auto-squeeze decision preserves structural well-formedness. -/
lemma performAutoSqueeze_WF {c : QCPDataContainer} (hwf : WF c) :
    WF (performAutoSqueeze c) := by
  unfold performAutoSqueeze
  dsimp only
  split_ifs <;> first
  | exact squeeze_WF _ _ hwf
  | exact hwf

/-- The removal epilogue never moves the live range. -/
lemma autoSqueezeCheck_live (c : QCPDataContainer) :
    live (autoSqueezeCheck c) = live c := by
  unfold autoSqueezeCheck
  split_ifs with h
  · exact performAutoSqueeze_live c
  · rfl

/-- The removal epilogue preserves structural well-formedness. -/
lemma autoSqueezeCheck_WF {c : QCPDataContainer} (hwf : WF c) :
    WF (autoSqueezeCheck c) := by
  unfold autoSqueezeCheck
  split_ifs with h
  · exact performAutoSqueeze_WF hwf
  · exact hwf

/-- Replacement by a vector yields the vector, sorted unless asserted. -/
lemma setVector_live (c : QCPDataContainer) (d : List DataPoint) (b : Bool) :
    live (setVector c d b) = if b then d else sortPoints d := by
  unfold setVector sortLive
  cases b <;> simp [live]

/-- Replacement by a vector resets the slack and growth iteration. -/
lemma setVector_resets (c : QCPDataContainer) (d : List DataPoint) (b : Bool) :
    (setVector c d b).mPreallocSize = 0 ∧ (setVector c d b).mPreallocIteration = 0 := by
  unfold setVector sortLive
  cases b <;> simp

/-- Replacement by a vector is structurally well-formed. -/
lemma setVector_WF (c : QCPDataContainer) (d : List DataPoint) (b : Bool) :
    WF (setVector c d b) := by
  unfold setVector sortLive WF
  cases b <;> simp

/-- Removing an inner segment of a sorted list keeps it sorted. -/
lemma sorted_take_append_drop {l : List DataPoint} (hs : l.Sorted keyLE) {i j : Nat}
    (hij : i ≤ j) : (l.take i ++ l.drop j).Sorted keyLE := by
  refine List.pairwise_append.mpr ⟨List.Pairwise.sublist (List.take_sublist _ _) hs,
    List.Pairwise.sublist (List.drop_sublist _ _) hs, fun a ha b hb => ?_⟩
  have h2 : List.Pairwise keyLE (l.take j ++ l.drop j) := by
    rw [List.take_append_drop]; exact hs
  refine (List.pairwise_append.mp h2).2.2 a ?_ b hb
  have htt : (l.take j).take i = l.take i := by
    rw [List.take_take, min_eq_left hij]
  rw [← htt] at ha
  exact List.take_subset i (l.take j) ha

/-- The bookkeeping part of `removeBefore` drops the lower bound from the
live range without touching the buffer. -/
lemma removeBeforeMid_live (c : QCPDataContainer) (k : Int) :
    live (removeBeforeMid c k) = (live c).drop (lowerBoundIdx (live c) k) := by
  unfold removeBeforeMid
  show c.mData.drop (c.mPreallocSize + lowerBoundIdx (live c) k) = _
  rw [live, List.drop_drop]

/-- On a sorted container, `removeBefore` keeps exactly the elements with
key at least `k`. -/
lemma removeBefore_live {c : QCPDataContainer} (k : Int) (hs : SortedLive c) :
    live (removeBefore c k) = (live c).filter fun p => decide (k ≤ p.sortKey) := by
  unfold removeBefore
  rw [autoSqueezeCheck_live, removeBeforeMid_live]
  exact drop_lowerBoundIdx k hs

/-- On a sorted container, `removeAfter` keeps exactly the elements with
key at most `k`. -/
lemma removeAfter_live {c : QCPDataContainer} (k : Int) (hs : SortedLive c) :
    live (removeAfter c k) = (live c).filter fun p => decide (p.sortKey ≤ k) := by
  unfold removeAfter
  rw [autoSqueezeCheck_live]
  show (c.mData.take (c.mPreallocSize + upperBoundIdx (live c) k)).drop c.mPreallocSize = _
  rw [List.drop_take]
  have harith : c.mPreallocSize + upperBoundIdx (live c) k - c.mPreallocSize
      = upperBoundIdx (live c) k := by omega
  rw [harith, ← live]
  exact take_upperBoundIdx k hs

/-- Range removal keeps the live range sorted. -/
lemma removeRange_sorted (c : QCPDataContainer) (k1 k2 : Int) (hwf : WF c)
    (hs : SortedLive c) : SortedLive (removeRange c k1 k2) := by
  unfold removeRange
  split_ifs with h
  · exact hs
  · dsimp only
    rw [SortedLive, autoSqueezeCheck_live]
    simp only [live]
    have hi : lowerBoundIdx (c.mData.drop c.mPreallocSize) k1 ≤
        (c.mData.drop c.mPreallocSize).length := lowerBoundIdx_le_length _ _
    have hwf' : c.mPreallocSize ≤ c.mData.length := hwf
    rw [List.length_drop] at hi
    have hlen : c.mPreallocSize ≤
        (c.mData.take (c.mPreallocSize + lowerBoundIdx (c.mData.drop c.mPreallocSize) k1)).length := by
      rw [List.length_take]
      omega
    rw [List.drop_append_of_le_length hlen, List.drop_take, ← List.drop_drop]
    have harith : c.mPreallocSize + lowerBoundIdx (c.mData.drop c.mPreallocSize) k1 -
        c.mPreallocSize = lowerBoundIdx (c.mData.drop c.mPreallocSize) k1 := by omega
    rw [harith]
    exact sorted_take_append_drop hs (by omega)

/-- When a sorted range holds a key, the lower bound is an in-range index
and lands exactly on an element with that key (the first of the equal run). -/
lemma lowerBound_match {l : List DataPoint} {k : Int} (hs : l.Sorted keyLE)
    (hex : ∃ p ∈ l, p.sortKey = k) :
    lowerBoundIdx l k < l.length ∧ (l.getD (lowerBoundIdx l k) default).sortKey = k := by
  obtain ⟨p, hp, hpk⟩ := hex
  have hdrop : l.drop (lowerBoundIdx l k) = l.filter fun q => decide (k ≤ q.sortKey) :=
    drop_lowerBoundIdx k hs
  have hpf : p ∈ l.filter fun q => decide (k ≤ q.sortKey) :=
    List.mem_filter.mpr ⟨hp, by simp [hpk]⟩
  have hne : l.drop (lowerBoundIdx l k) ≠ [] := by
    rw [hdrop]; exact List.ne_nil_of_mem hpf
  have hi : lowerBoundIdx l k < l.length := by
    by_contra hcon
    push_neg at hcon
    exact hne (List.drop_eq_nil_of_le hcon)
  obtain ⟨d, D, hD⟩ := List.exists_cons_of_ne_nil hne
  have hdmem : d ∈ l.filter fun q => decide (k ≤ q.sortKey) := by
    rw [← hdrop, hD]; simp
  have hdk : k ≤ d.sortKey := by simpa using (List.mem_filter.mp hdmem).2
  have hpd : p ∈ l.drop (lowerBoundIdx l k) := by rw [hdrop]; exact hpf
  have hsD : (l.drop (lowerBoundIdx l k)).Sorted keyLE :=
    List.Pairwise.sublist (List.drop_sublist _ _) hs
  have hdp := sorted_headD_le hsD hpd
  rw [hD] at hdp
  have hdk2 : d.sortKey = k := le_antisymm (by rw [← hpk]; exact hdp) hdk
  refine ⟨hi, ?_⟩
  rw [getD_eq_headD_drop, hD]
  exact hdk2

/-- The erasure part of single-key removal acts as `eraseP` of an exact key
match on the live range. -/
lemma removeKeyMid_live {c : QCPDataContainer} (k : Int) (hs : SortedLive c) :
    live (removeKeyMid c k) = (live c).eraseP fun p => p.sortKey == k := by
  unfold removeKeyMid
  dsimp only
  by_cases hex : ∃ p ∈ live c, p.sortKey = k
  · obtain ⟨hi, hk⟩ := lowerBound_match hs hex
    have hi' : lowerBoundIdx (live c) k < size c := by rw [← length_live]; exact hi
    rw [if_pos (by
      simp only [Bool.and_eq_true, decide_eq_true_eq, beq_iff_eq]
      exact ⟨hi', hk⟩)]
    have hne : (live c).drop (lowerBoundIdx (live c) k) ≠ [] := by
      intro hnil
      have hlen := congrArg List.length hnil
      rw [List.length_drop] at hlen
      simp at hlen
      omega
    obtain ⟨d, D, hD⟩ := List.exists_cons_of_ne_nil hne
    have hdk : d.sortKey = k := by
      rw [getD_eq_headD_drop, hD] at hk
      exact hk
    have hAnot : ∀ a ∈ (live c).take (lowerBoundIdx (live c) k),
        ¬ ((fun p : DataPoint => p.sortKey == k) a = true) := by
      intro a ha hbeq
      rw [take_lowerBoundIdx k hs] at ha
      have := (List.mem_filter.mp ha).2
      simp only [decide_eq_true_eq] at this
      rw [beq_iff_eq] at hbeq
      omega
    split_ifs with hzero
    · have hlive0 : live c = d :: D := by
        have := hD
        rw [hzero, List.drop_zero] at this
        exact this
      show c.mData.drop (c.mPreallocSize + 1) = _
      have hstep : c.mData.drop (c.mPreallocSize + 1) = (live c).drop 1 :=
        (List.drop_drop 1 c.mPreallocSize c.mData).symm
      rw [hstep]
      conv_rhs => rw [hlive0]
      rw [List.eraseP_cons_of_pos (by simp [hdk]), hlive0]
      rfl
    · show (c.mData.eraseIdx (c.mPreallocSize + lowerBoundIdx (live c) k)).drop
          c.mPreallocSize = _
      rw [drop_eraseIdx]
      show (live c).eraseIdx (lowerBoundIdx (live c) k) = _
      rw [List.eraseIdx_eq_take_drop_succ]
      have hD1 : (live c).drop (lowerBoundIdx (live c) k + 1) = D := by
        have := (List.drop_drop 1 (lowerBoundIdx (live c) k) (live c)).symm
        rw [this, hD]
        rfl
      rw [hD1]
      have hl : live c = (live c).take (lowerBoundIdx (live c) k) ++ d :: D := by
        rw [← hD, List.take_append_drop]
      conv_rhs => rw [hl]
      rw [List.eraseP_append_right _ hAnot]
      rw [List.eraseP_cons_of_pos (by simp [hdk])]
  · have hnot : ∀ p ∈ live c, ¬ (p.sortKey == k) = true := fun p hp hbeq =>
      hex ⟨p, hp, by simpa using hbeq⟩
    have hcond : ¬ ((decide (lowerBoundIdx (live c) k < size c) &&
        (((live c).getD (lowerBoundIdx (live c) k) default).sortKey == k)) = true) := by
      intro hc
      rw [Bool.and_eq_true, decide_eq_true_eq, beq_iff_eq] at hc
      obtain ⟨hi, hk⟩ := hc
      have hi' : lowerBoundIdx (live c) k < (live c).length := by
        rw [length_live]; exact hi
      have hne : (live c).drop (lowerBoundIdx (live c) k) ≠ [] := by
        intro hnil
        have hlen := congrArg List.length hnil
        rw [List.length_drop] at hlen
        simp at hlen
        omega
      obtain ⟨d, D, hD⟩ := List.exists_cons_of_ne_nil hne
      have hdmem : d ∈ live c := List.drop_subset _ _ (by rw [hD]; simp)
      apply hex
      refine ⟨d, hdmem, ?_⟩
      rw [getD_eq_headD_drop, hD] at hk
      exact hk
    rw [if_neg hcond, List.eraseP_of_forall_not hnot]

/-- When the first live element matches the key exactly, single-key removal
only folds it into the front slack: the buffer is untouched. -/
lemma removeKeyMid_fold {c : QCPDataContainer} {k : Int} (hne : live c ≠ [])
    (hhead : ((live c).headD default).sortKey = k) :
    (removeKeyMid c k).mData = c.mData ∧
    (removeKeyMid c k).mPreallocSize = c.mPreallocSize + 1 := by
  unfold removeKeyMid
  dsimp only
  obtain ⟨d, D, hD⟩ := List.exists_cons_of_ne_nil hne
  have hdk : d.sortKey = k := by rw [hD] at hhead; simpa using hhead
  have hi0 : lowerBoundIdx (live c) k = 0 := by
    unfold lowerBoundIdx
    rw [hD]
    simp [List.takeWhile_cons, qcpLessThanSortKey, fromSortKey, hdk]
  rw [hi0]
  have hsz : 0 < size c := by rw [← length_live, hD]; simp
  have hget : ((live c).getD 0 default).sortKey = k := by rw [hD]; simpa using hdk
  rw [if_pos (by
    simp only [Bool.and_eq_true, decide_eq_true_eq, beq_iff_eq]
    exact ⟨hsz, hget⟩), if_pos rfl]
  exact ⟨rfl, rfl⟩

/-- When a match exists but is not the first live element, single-key
removal physically erases exactly the element at the lower bound. -/
lemma removeKeyMid_erase {c : QCPDataContainer} {k : Int} (hs : SortedLive c)
    (hex : ∃ p ∈ live c, p.sortKey = k)
    (hhead : ((live c).headD default).sortKey ≠ k) :
    (removeKeyMid c k).mPreallocSize = c.mPreallocSize ∧
    (removeKeyMid c k).mData =
      c.mData.eraseIdx (c.mPreallocSize + lowerBoundIdx (live c) k) := by
  unfold removeKeyMid
  dsimp only
  obtain ⟨hi, hk⟩ := lowerBound_match hs hex
  have hi' : lowerBoundIdx (live c) k < size c := by rw [← length_live]; exact hi
  have hz : lowerBoundIdx (live c) k ≠ 0 := by
    intro h0
    apply hhead
    rw [← hk, h0, getD_eq_headD_drop, List.drop_zero]
  rw [if_pos (by
    simp only [Bool.and_eq_true, decide_eq_true_eq, beq_iff_eq]
    exact ⟨hi', hk⟩), if_neg hz]
  exact ⟨rfl, rfl⟩

/-- Single-key removal acts as `eraseP` of an exact key match. -/
lemma removeKey_live {c : QCPDataContainer} (k : Int) (hs : SortedLive c) :
    live (removeKey c k) = (live c).eraseP fun p => p.sortKey == k := by
  unfold removeKey
  rw [autoSqueezeCheck_live]
  exact removeKeyMid_live k hs

/-- Writing a point into the slack slot just below the live range and
exposing it prepends the point. -/
lemma prepend_write_live (c1 : QCPDataContainer) (p : DataPoint) (hwf1 : WF c1)
    (hpre : 1 ≤ c1.mPreallocSize) :
    live { c1 with mPreallocSize := c1.mPreallocSize - 1,
                   mData := c1.mData.set (c1.mPreallocSize - 1) p } = p :: live c1 := by
  show (c1.mData.set (c1.mPreallocSize - 1) p).drop (c1.mPreallocSize - 1) = _
  have hwf1' : c1.mPreallocSize ≤ c1.mData.length := hwf1
  rw [drop_set_cons p c1.mData _ (by omega)]
  rw [live]
  have : c1.mPreallocSize - 1 + 1 = c1.mPreallocSize := by omega
  rw [this]

/-- Case analysis of the three paths of `add(const DataType&)`: append at
the back, prepend into the front slack, or splice at the lower bound. -/
lemma addOne_cases {c : QCPDataContainer} (p : DataPoint) (hwf : WF c) :
    (live (addOne c p) = live c ++ [p] ∧
      (size c = 0 ∨ ((live c).getLastD default).sortKey ≤ p.sortKey)) ∨
    (live (addOne c p) = p :: live c ∧
      p.sortKey < ((live c).headD default).sortKey) ∨
    (live (addOne c p) = (live c).take (lowerBoundIdx (live c) p.sortKey) ++
        p :: (live c).drop (lowerBoundIdx (live c) p.sortKey) ∧
      p.sortKey < ((live c).getLastD default).sortKey ∧
      ((live c).headD default).sortKey ≤ p.sortKey) := by
  unfold addOne
  by_cases h1 : (isEmpty c || ! qcpLessThanSortKey p ((live c).getLastD default)) = true
  · rw [if_pos h1]
    left
    constructor
    · show (c.mData ++ [p]).drop c.mPreallocSize = live c ++ [p]
      exact List.drop_append_of_le_length hwf
    · rw [Bool.or_eq_true] at h1
      rcases h1 with he | hl
      · exact Or.inl (by simpa [isEmpty] using he)
      · rw [Bool.not_eq_true'] at hl
        exact Or.inr (qcpLt_false hl)
  · rw [if_neg h1]
    rw [Bool.or_eq_true, not_or, Bool.not_eq_true, Bool.not_eq_true', Bool.not_eq_false] at h1
    obtain ⟨hne, hlast⟩ := h1
    by_cases h2 : qcpLessThanSortKey p ((live c).headD default) = true
    · rw [if_pos h2]
      right; left
      constructor
      · by_cases hg : c.mPreallocSize < 1
        · rw [if_pos hg]
          rw [prepend_write_live _ p (preallocateGrow_WF 1 hwf) (preallocateGrow_le c 1)]
          rw [preallocateGrow_live 1 hwf]
        · rw [if_neg hg]
          exact prepend_write_live c p hwf (by omega)
      · exact qcpLt_true h2
    · rw [if_neg h2]
      dsimp only
      right; right
      have hble : lowerBoundIdx (live c) p.sortKey ≤ (live c).length :=
        lowerBoundIdx_le_length _ _
      have hlive_len : (live c).length = c.mData.length - c.mPreallocSize := by
        rw [length_live]; rfl
      have hwf' : c.mPreallocSize ≤ c.mData.length := hwf
      refine ⟨?_, qcpLt_true (by simpa using hlast), qcpLt_false (by simpa using h2)⟩
      show (insertAt c.mData (c.mPreallocSize + lowerBoundIdx (live c) p.sortKey) p).drop
          c.mPreallocSize = _
      unfold insertAt
      have hlen : c.mPreallocSize ≤
          (c.mData.take (c.mPreallocSize + lowerBoundIdx (live c) p.sortKey)).length := by
        rw [List.length_take]
        omega
      rw [List.drop_append_of_le_length hlen, List.drop_take]
      have harith : c.mPreallocSize + lowerBoundIdx (live c) p.sortKey - c.mPreallocSize
          = lowerBoundIdx (live c) p.sortKey := by omega
      rw [harith]
      show (live c).take _ ++ p :: c.mData.drop _ = _
      rw [(List.drop_drop (lowerBoundIdx (live c) p.sortKey) c.mPreallocSize c.mData).symm]
      rfl

/-- A single-point add permutes consing the point onto the live range. -/
lemma addOne_perm {c : QCPDataContainer} (p : DataPoint) (hwf : WF c) :
    List.Perm (live (addOne c p)) (p :: live c) := by
  rcases addOne_cases p hwf with ⟨h, _⟩ | ⟨h, _⟩ | ⟨h, _, _⟩
  · rw [h]
    exact List.perm_append_singleton p (live c)
  · rw [h]
  · rw [h]
    have hmid := @List.perm_middle DataPoint p
      ((live c).take (lowerBoundIdx (live c) p.sortKey))
      ((live c).drop (lowerBoundIdx (live c) p.sortKey))
    rw [List.take_append_drop] at hmid
    exact hmid

/-- A single-point add keeps the live range sorted, whichever path fires. -/
lemma addOne_sorted {c : QCPDataContainer} (p : DataPoint) (hwf : WF c)
    (hs : SortedLive c) : SortedLive (addOne c p) := by
  rcases addOne_cases p hwf with ⟨h, hcond⟩ | ⟨h, hcond⟩ | ⟨h, hc1, hc2⟩
  · rw [SortedLive, h]
    refine List.pairwise_append.mpr ⟨hs, List.pairwise_singleton _ _, ?_⟩
    intro a ha b hb
    rcases hcond with hsz | hle
    · rw [live_eq_nil_of_size_eq_zero hsz] at ha
      cases ha
    · have hb' : b = p := by simpa using hb
      subst hb'
      exact le_trans (sorted_le_getLastD (live c) default hs a ha) hle
  · rw [SortedLive, h]
    refine List.pairwise_cons.mpr ⟨fun b hb => ?_, hs⟩
    exact le_trans (le_of_lt hcond) (sorted_headD_le hs hb)
  · rw [SortedLive, h]
    refine List.pairwise_append.mpr ⟨List.Pairwise.sublist (List.take_sublist _ _) hs,
      List.pairwise_cons.mpr ⟨fun b hb => ?_,
        List.Pairwise.sublist (List.drop_sublist _ _) hs⟩, ?_⟩
    · rw [drop_lowerBoundIdx p.sortKey hs] at hb
      have := (List.mem_filter.mp hb).2
      simpa [keyLE] using this
    · intro a ha b hb
      rw [take_lowerBoundIdx p.sortKey hs] at ha
      have halt : a.sortKey < p.sortKey := by simpa using (List.mem_filter.mp ha).2
      rcases List.mem_cons.mp hb with rfl | hb'
      · exact le_of_lt halt
      · rw [drop_lowerBoundIdx p.sortKey hs] at hb'
        have hpb : p.sortKey ≤ b.sortKey := by simpa using (List.mem_filter.mp hb').2
        exact le_trans (le_of_lt halt) hpb

/-- Ordering across two sorted runs whose boundary elements are ordered. -/
lemma cross_of_le {xs ys : List DataPoint} (hx : xs.Sorted keyLE) (hy : ys.Sorted keyLE)
    (h : keyLE (xs.getLastD default) (ys.headD default)) :
    ∀ a ∈ xs, ∀ b ∈ ys, keyLE a b := fun a ha b hb =>
  le_trans (le_trans (sorted_le_getLastD xs default hx a ha) h) (sorted_headD_le hy hb)

/-- Copying a block into the front slack and exposing it prepends the block
to the live range. -/
lemma prepend_block_live (c1 : QCPDataContainer) (run : List DataPoint) (hwf1 : WF c1)
    (hn : run.length ≤ c1.mPreallocSize) :
    live { c1 with mPreallocSize := c1.mPreallocSize - run.length,
                   mData := c1.mData.take (c1.mPreallocSize - run.length) ++ run ++
                            c1.mData.drop c1.mPreallocSize } = run ++ live c1 := by
  show (c1.mData.take (c1.mPreallocSize - run.length) ++ run ++
      c1.mData.drop c1.mPreallocSize).drop (c1.mPreallocSize - run.length) = _
  have hwf1' : c1.mPreallocSize ≤ c1.mData.length := hwf1
  have hl : (c1.mData.take (c1.mPreallocSize - run.length)).length
      = c1.mPreallocSize - run.length := by
    rw [List.length_take]
    omega
  rw [List.append_assoc, List.drop_left' hl]
  rfl

/-- A vector add keeps the live range sorted, provided a vector asserted
as already sorted really is sorted. -/
lemma addVector_sorted (c : QCPDataContainer) (d : List DataPoint) (b : Bool)
    (hwf : WF c) (hs : SortedLive c) (hd : b = true → d.Sorted keyLE) :
    SortedLive (addVector c d b) := by
  unfold addVector
  by_cases h1 : d.isEmpty = true
  · rw [if_pos h1]; exact hs
  · rw [if_neg h1]
    by_cases h2 : isEmpty c = true
    · rw [if_pos h2]
      rw [SortedLive, setVector_live]
      cases b
      · simpa using sortPoints_sorted d
      · simpa using hd rfl
    · rw [if_neg h2]
      dsimp only
      by_cases h3 : (b && decide (0 < size c) &&
          ! qcpLessThanSortKey ((live c).headD default) (d.getLastD default)) = true
      · rw [if_pos h3]
        rw [Bool.and_eq_true, Bool.and_eq_true, Bool.not_eq_true'] at h3
        obtain ⟨⟨hb, _⟩, hcmp⟩ := h3
        have hds : d.Sorted keyLE := hd hb
        have hfinal : (d ++ live c).Sorted keyLE := by
          refine List.pairwise_append.mpr ⟨hds, hs, ?_⟩
          exact cross_of_le hds hs (qcpLt_false hcmp)
        by_cases hg : c.mPreallocSize < d.length
        · rw [if_pos hg]
          rw [SortedLive,
            prepend_block_live _ d (preallocateGrow_WF _ hwf) (preallocateGrow_le c d.length),
            preallocateGrow_live _ hwf]
          exact hfinal
        · rw [if_neg hg]
          rw [SortedLive, prepend_block_live c d hwf (by omega)]
          exact hfinal
      · rw [if_neg h3]
        rw [SortedLive]
        have hwf' : c.mPreallocSize ≤ c.mData.length := hwf
        have hpre : (c.mData.take c.mPreallocSize).length = c.mPreallocSize := by
          rw [List.length_take]
          omega
        show ((c.mData.take c.mPreallocSize ++ _).drop c.mPreallocSize).Sorted keyLE
        rw [List.drop_left' hpre]
        have hrun : (if b = true then d else sortPoints d).Sorted keyLE := by
          split_ifs with hb
          · exact hd hb
          · exact sortPoints_sorted d
        by_cases h4 : (decide (0 < size c) && ! qcpLessThanSortKey ((live c).getLastD default)
            ((if b = true then d else sortPoints d).headD default)) = true
        · rw [if_pos h4]
          exact mergeRuns_sorted hs hrun
        · rw [if_neg h4]
          refine List.pairwise_append.mpr ⟨hs, hrun, fun a ha y hy => ?_⟩
          simp only [Bool.and_eq_true, decide_eq_true_eq, Bool.not_eq_true',
            not_and_or, Bool.not_eq_false] at h4
          rcases h4 with hsz | hcmp
          · rw [live_eq_nil_of_size_eq_zero (by omega)] at ha
            cases ha
          · exact le_trans (sorted_le_getLastD _ _ hs a ha)
              (le_trans (le_of_lt (qcpLt_true hcmp)) (sorted_headD_le hrun hy))

/-- A container add keeps the live range sorted, given the argument
container's own sort invariant. -/
lemma addContainer_sorted (c dataC : QCPDataContainer) (hwf : WF c) (hs : SortedLive c)
    (hsd : SortedLive dataC) : SortedLive (addContainer c dataC) := by
  unfold addContainer
  by_cases h1 : isEmpty dataC = true
  · rw [if_pos h1]; exact hs
  · rw [if_neg h1]
    dsimp only
    rw [← length_live dataC]
    by_cases h3 : (decide (0 < size c) &&
        ! qcpLessThanSortKey ((live c).headD default) ((live dataC).getLastD default)) = true
    · rw [if_pos h3]
      rw [Bool.and_eq_true, Bool.not_eq_true'] at h3
      obtain ⟨_, hcmp⟩ := h3
      have hfinal : (live dataC ++ live c).Sorted keyLE := by
        refine List.pairwise_append.mpr ⟨hsd, hs, ?_⟩
        exact cross_of_le hsd hs (qcpLt_false hcmp)
      by_cases hg : c.mPreallocSize < (live dataC).length
      · rw [if_pos hg]
        rw [SortedLive, prepend_block_live _ (live dataC) (preallocateGrow_WF _ hwf)
            (preallocateGrow_le c (live dataC).length),
          preallocateGrow_live _ hwf]
        exact hfinal
      · rw [if_neg hg]
        rw [SortedLive, prepend_block_live c (live dataC) hwf (by omega)]
        exact hfinal
    · rw [if_neg h3]
      rw [SortedLive]
      have hwf' : c.mPreallocSize ≤ c.mData.length := hwf
      have hpre : (c.mData.take c.mPreallocSize).length = c.mPreallocSize := by
        rw [List.length_take]
        omega
      show ((c.mData.take c.mPreallocSize ++ _).drop c.mPreallocSize).Sorted keyLE
      rw [List.drop_left' hpre]
      by_cases h4 : (decide (0 < size c) && ! qcpLessThanSortKey ((live c).getLastD default)
          ((live dataC).headD default)) = true
      · rw [if_pos h4]
        exact mergeRuns_sorted hs hsd
      · rw [if_neg h4]
        refine List.pairwise_append.mpr ⟨hs, hsd, fun a ha y hy => ?_⟩
        simp only [Bool.and_eq_true, decide_eq_true_eq, Bool.not_eq_true',
          not_and_or, Bool.not_eq_false] at h4
        rcases h4 with hsz | hcmp
        · rw [live_eq_nil_of_size_eq_zero (by omega)] at ha
          cases ha
        · exact le_trans (sorted_le_getLastD _ _ hs a ha)
            (le_trans (le_of_lt (qcpLt_true hcmp)) (sorted_headD_le hsd hy))

/-- Clearing leaves an empty, trivially sorted live range. -/
lemma clear_sorted (c : QCPDataContainer) : SortedLive (clear c) := by
  simp [SortedLive, clear, live]

/-- Clearing is structurally well-formed. -/
lemma clear_WF (c : QCPDataContainer) : WF (clear c) := by
  simp [WF, clear]

/-- Container replacement keeps the live range sorted, given the argument
container's own sort invariant. -/
lemma setContainer_sorted (c dataC : QCPDataContainer) (hsd : SortedLive dataC) :
    SortedLive (setContainer c dataC) :=
  addContainer_sorted (clear c) dataC (clear_WF c) (clear_sorted c) hsd

/-- Lazy front removal keeps the live range sorted. -/
lemma removeBefore_sorted (c : QCPDataContainer) (k : Int) (hs : SortedLive c) :
    SortedLive (removeBefore c k) := by
  rw [SortedLive, removeBefore_live k hs]
  exact List.Pairwise.sublist (List.filter_sublist _) hs

/-- Tail removal keeps the live range sorted. -/
lemma removeAfter_sorted (c : QCPDataContainer) (k : Int) (hs : SortedLive c) :
    SortedLive (removeAfter c k) := by
  rw [SortedLive, removeAfter_live k hs]
  exact List.Pairwise.sublist (List.filter_sublist _) hs

/-- Single-key removal keeps the live range sorted. -/
lemma removeKey_sorted (c : QCPDataContainer) (k : Int) (hs : SortedLive c) :
    SortedLive (removeKey c k) := by
  rw [SortedLive, removeKey_live k hs]
  exact List.Pairwise.sublist (List.eraseP_sublist _) hs

/-- Squeezing keeps the live range sorted. -/
lemma squeeze_sorted (c : QCPDataContainer) (b1 b2 : Bool) (hs : SortedLive c) :
    SortedLive (squeeze c b1 b2) := by
  rw [SortedLive, squeeze_live]
  exact hs

/-- Vector replacement keeps the live range sorted, provided a vector
asserted as already sorted really is sorted. -/
lemma setVector_sorted (c : QCPDataContainer) (d : List DataPoint) (b : Bool)
    (hd : b = true → d.Sorted keyLE) : SortedLive (setVector c d b) := by
  rw [SortedLive, setVector_live]
  cases b
  · simpa using sortPoints_sorted d
  · simpa using hd rfl

/-- On a sorted container, the lazy front trim adds to the slack exactly
the count of live elements with key strictly below `k`. -/
lemma removeBeforeMid_count {c : QCPDataContainer} (k : Int) (hs : SortedLive c) :
    (removeBeforeMid c k).mPreallocSize
      = c.mPreallocSize + ((live c).filter fun p => decide (p.sortKey < k)).length := by
  unfold removeBeforeMid
  simp only
  congr 1
  have hlen := congrArg List.length (take_lowerBoundIdx k hs)
  rw [List.length_take, min_eq_left (lowerBoundIdx_le_length _ _)] at hlen
  exact hlen

end QCPDataContainer

/-- The half-open index range between the lower and upper bound of `k` on a
sorted range carves out exactly the elements with key equal to `k`. -/
lemma bracket_filter {l : List DataPoint} (k : Int) (hs : l.Sorted keyLE) :
    (l.drop (lowerBoundIdx l k)).take (upperBoundIdx l k - lowerBoundIdx l k)
      = l.filter fun p => p.sortKey == k := by
  have hD : l.drop (lowerBoundIdx l k)
      = l.dropWhile fun p => qcpLessThanSortKey p (fromSortKey k) := by
    unfold lowerBoundIdx
    exact drop_len_takeWhile _ l
  have hDF : (l.dropWhile fun p => qcpLessThanSortKey p (fromSortKey k))
      = l.filter fun p => decide (k ≤ p.sortKey) := by
    rw [← hD]
    exact drop_lowerBoundIdx k hs
  have hsplit : (l.takeWhile fun p => ! qcpLessThanSortKey (fromSortKey k) p)
      = (l.takeWhile fun p => qcpLessThanSortKey p (fromSortKey k)) ++
        ((l.dropWhile fun p => qcpLessThanSortKey p (fromSortKey k)).takeWhile
          fun p => ! qcpLessThanSortKey (fromSortKey k) p) := by
    conv_lhs =>
      rw [← List.takeWhile_append_dropWhile
        (fun p => qcpLessThanSortKey p (fromSortKey k)) l]
    refine takeWhile_append_all _ _ fun a ha => ?_
    have hlt := List.mem_takeWhile_imp ha
    simp only [qcpLessThanSortKey, fromSortKey, decide_eq_true_eq] at hlt
    simp only [qcpLessThanSortKey, fromSortKey, Bool.not_eq_true', decide_eq_false_iff_not]
    omega
  have hub : upperBoundIdx l k = lowerBoundIdx l k +
      ((l.dropWhile fun p => qcpLessThanSortKey p (fromSortKey k)).takeWhile
        fun p => ! qcpLessThanSortKey (fromSortKey k) p).length := by
    unfold upperBoundIdx lowerBoundIdx
    rw [hsplit, List.length_append]
  rw [hD, hub, Nat.add_sub_cancel_left, take_len_takeWhile]
  have hsD : (l.dropWhile fun p => qcpLessThanSortKey p (fromSortKey k)).Sorted keyLE := by
    rw [← hD]
    exact List.Pairwise.sublist (List.drop_sublist _ _) hs
  rw [sorted_takeWhile_eq_filter (fun p => ! qcpLessThanSortKey (fromSortKey k) p)
    (fun a b hab hb => by
      simp only [qcpLessThanSortKey, fromSortKey, Bool.not_eq_true',
        decide_eq_false_iff_not, Int.not_lt] at hb ⊢
      omega) hsD]
  rw [hDF, List.filter_filter]
  refine List.filter_congr fun x _ => ?_
  simp only [qcpLessThanSortKey, fromSortKey]
  rcases lt_trichotomy x.sortKey k with h | h | h
  · have h1 : ¬ (k < x.sortKey) := by omega
    have h2 : ¬ (k ≤ x.sortKey) := by omega
    have h3 : x.sortKey ≠ k := by omega
    simp [h1, h2, h3]
  · have h1 : ¬ (k < x.sortKey) := by omega
    have h2 : k ≤ x.sortKey := by omega
    simp [h1, h2, h]
  · have h1 : k < x.sortKey := h
    have h3 : x.sortKey ≠ k := by omega
    simp [h1, h3]

open QCPDataContainer

/-- Concrete well-formed sorted store used to instantiate hypotheses of the
claim theorems. -/
def sampleStore : QCPDataContainer :=
  setVector init [⟨1, 10⟩, ⟨2, 20⟩, ⟨2, 21⟩, ⟨4, 40⟩] true

/-- Claim C1, counterexample: the claim as frozen quantifies over every
vector argument, also when alreadySorted = true is asserted for an unsorted
vector; adding the unsorted vector [(3,30),(1,10)] with that assertion to
the well-formed sorted empty container leaves the live range unsorted. -/
theorem claim_C1_counterexample :
    WF init ∧ SortedLive init ∧
    ¬ SortedLive (addVector init [⟨3, 30⟩, ⟨1, 10⟩] true) :=
  ⟨by decide, by decide, by decide⟩

/-- Claim C1, amended: for every well-formed store whose live range is
non-decreasing under the sort key on entry, every public mutating operation
(both set overloads, all three add overloads, removeBefore, removeAfter,
key-range remove, single-key remove, clear, squeeze) leaves the live range
non-decreasing on return, provided every vector argument passed with
alreadySorted = true is itself non-decreasing under the sort key and every
container argument satisfies the sort invariant itself. -/
theorem claim_C1 (c : QCPDataContainer) (hwf : WF c) (hs : SortedLive c) :
    (∀ d b, (b = true → d.Sorted keyLE) → SortedLive (setVector c d b)) ∧
    (∀ dc, SortedLive dc → SortedLive (setContainer c dc)) ∧
    (∀ dc, SortedLive dc → SortedLive (addContainer c dc)) ∧
    (∀ d b, (b = true → d.Sorted keyLE) → SortedLive (addVector c d b)) ∧
    (∀ p, SortedLive (addOne c p)) ∧
    (∀ k, SortedLive (removeBefore c k)) ∧
    (∀ k, SortedLive (removeAfter c k)) ∧
    (∀ k1 k2, SortedLive (removeRange c k1 k2)) ∧
    (∀ k, SortedLive (removeKey c k)) ∧
    SortedLive (clear c) ∧
    (∀ b1 b2, SortedLive (squeeze c b1 b2)) :=
  ⟨fun d b hd => setVector_sorted c d b hd,
   fun dc hsd => setContainer_sorted c dc hsd,
   fun dc hsd => addContainer_sorted c dc hwf hs hsd,
   fun d b hd => addVector_sorted c d b hwf hs hd,
   fun p => addOne_sorted p hwf hs,
   fun k => removeBefore_sorted c k hs,
   fun k => removeAfter_sorted c k hs,
   fun k1 k2 => removeRange_sorted c k1 k2 hwf hs,
   fun k => removeKey_sorted c k hs,
   clear_sorted c,
   fun b1 b2 => squeeze_sorted c b1 b2 hs⟩

/-- Claim C1, witness: the amended theorem applied to a concrete store. -/
theorem claim_C1_witness :
    SortedLive (addOne sampleStore ⟨3, 30⟩) ∧
    SortedLive (removeBefore sampleStore 2) ∧
    SortedLive (addVector sampleStore [⟨0, 0⟩, ⟨1, 1⟩] true) := by
  have h := claim_C1 sampleStore (by decide) (by decide)
  exact ⟨h.2.2.2.2.1 ⟨3, 30⟩, h.2.2.2.2.2.1 2,
    h.2.2.2.1 [⟨0, 0⟩, ⟨1, 1⟩] true (by decide)⟩

/-- Claim C2: evaluation of the code at the spec's own example.  On the
store [(5,50),(6,60),(7,70)], removeAfter(6) erases only the elements with
key strictly greater than 6 (its upper bound), leaving [(5,50),(6,60)] of
size 2, while the claim (and the function's own documentation) require that
the element with key exactly 6 be erased as well, leaving [(5,50)] of
size 1. -/
theorem claim_C2 :
    live (removeAfter (setVector init [⟨5, 50⟩, ⟨6, 60⟩, ⟨7, 70⟩] true) 6)
      = [⟨5, 50⟩, ⟨6, 60⟩] ∧
    size (removeAfter (setVector init [⟨5, 50⟩, ⟨6, 60⟩, ⟨7, 70⟩] true) 6) = 2 ∧
    live (removeAfter (setVector init [⟨5, 50⟩, ⟨6, 60⟩, ⟨7, 70⟩] true) 6)
      ≠ [⟨5, 50⟩] :=
  ⟨by decide, by decide, by decide⟩

/-- Claim C3, counterexample: on the store [(5,50)], removeBefore(5) keeps
the element with key exactly 5 (the code's lower bound removes only keys
strictly below 5), so the live sequence is not the set of elements with key
strictly greater than 5 required by the claim. -/
theorem claim_C3_counterexample :
    live (removeBefore (setVector init [⟨5, 50⟩] true) 5) = [⟨5, 50⟩] ∧
    live (removeBefore (setVector init [⟨5, 50⟩] true) 5)
      ≠ (live (setVector init [⟨5, 50⟩] true)).filter
          (fun p => decide ((5 : Int) < p.sortKey)) :=
  ⟨by decide, by decide⟩

/-- Claim C3, amended: for every sorted store, removeBefore(k) removes
exactly the leading elements with key strictly below k — the live sequence
afterwards is exactly the elements with key greater than or equal to k —
without physically erasing: the count of removed elements is added to the
front slack, after which the auto-squeeze check runs. -/
theorem claim_C3 (c : QCPDataContainer) (k : Int) (hs : SortedLive c) :
    removeBefore c k = autoSqueezeCheck (removeBeforeMid c k) ∧
    (removeBeforeMid c k).mData = c.mData ∧
    (removeBeforeMid c k).mPreallocSize
      = c.mPreallocSize + ((live c).filter fun p => decide (p.sortKey < k)).length ∧
    live (removeBefore c k) = (live c).filter fun p => decide (k ≤ p.sortKey) :=
  ⟨rfl, rfl, removeBeforeMid_count k hs, removeBefore_live k hs⟩

/-- Claim C3, witness: the amended theorem applied to a concrete store. -/
theorem claim_C3_witness :
    (removeBeforeMid sampleStore 2).mPreallocSize
      = sampleStore.mPreallocSize
        + ((live sampleStore).filter fun p => decide (p.sortKey < 2)).length ∧
    live (removeBefore sampleStore 2)
      = (live sampleStore).filter fun p => decide ((2 : Int) ≤ p.sortKey) := by
  have h := claim_C3 sampleStore 2 (by decide)
  exact ⟨h.2.2.1, h.2.2.2⟩

/-- Claim C4: replacing the contents with any vector xs and
alreadySorted = false yields a live sequence that is sorted by key and a
permutation (the same multiset) of xs, with the front slack and the growth
iteration counter reset to zero. -/
theorem claim_C4 (c : QCPDataContainer) (xs : List DataPoint) :
    SortedLive (setVector c xs false) ∧
    List.Perm (live (setVector c xs false)) xs ∧
    (setVector c xs false).mPreallocSize = 0 ∧
    (setVector c xs false).mPreallocIteration = 0 := by
  refine ⟨setVector_sorted c xs false (fun h => nomatch h), ?_,
    (setVector_resets c xs false).1, (setVector_resets c xs false).2⟩
  rw [setVector_live]
  simpa using sortPoints_perm xs

/-- Claim C5: a single-point add always yields a live range that is sorted
and is, as a multiset, the old contents plus the new point — equivalently a
permutation of appending the point to a plain list and sorting — whichever
of the three internal paths fires. -/
theorem claim_C5 (c : QCPDataContainer) (p : DataPoint) (hwf : WF c)
    (hs : SortedLive c) :
    SortedLive (addOne c p) ∧
    List.Perm (live (addOne c p)) (p :: live c) ∧
    List.Perm (live (addOne c p)) (sortPoints (live c ++ [p])) := by
  refine ⟨addOne_sorted p hwf hs, addOne_perm p hwf, ?_⟩
  exact (addOne_perm p hwf).trans
    ((sortPoints_perm (live c ++ [p])).trans (List.perm_append_singleton p (live c))).symm

/-- Claim C5, witness: the theorem applied to a concrete store and point
chosen to exercise the binary-search insert path. -/
theorem claim_C5_witness :
    SortedLive (addOne sampleStore ⟨3, 30⟩) ∧
    List.Perm (live (addOne sampleStore ⟨3, 30⟩)) (⟨3, 30⟩ :: live sampleStore) := by
  have h := claim_C5 sampleStore ⟨3, 30⟩ (by decide) (by decide)
  exact ⟨h.1, h.2.1⟩

/-- Claim C6: on an empty store findBegin and findEnd return the end
sentinel for either expansion flag; on any sorted store the half-open range
between the non-expanded bounds carves out exactly the elements with key
equal to k; and with expanded = true, findBegin steps one element below the
lower bound when one exists (returning the begin index otherwise) and
findEnd steps one element above the upper bound when one exists (returning
the end sentinel otherwise). -/
theorem claim_C6 (c : QCPDataContainer) (k : Int) (hs : SortedLive c) :
    (isEmpty c = true → ∀ e : Bool, findBegin c k e = size c ∧ findEnd c k e = size c) ∧
    ((live c).drop (findBegin c k false)).take (findEnd c k false - findBegin c k false)
      = (live c).filter (fun p => p.sortKey == k) ∧
    (isEmpty c = false →
      findBegin c k true
        = (if findBegin c k false = 0 then 0 else findBegin c k false - 1) ∧
      findEnd c k true
        = (if findEnd c k false = size c then size c else findEnd c k false + 1)) := by
  refine ⟨fun he e => ?_, ?_, fun hne => ?_⟩
  · unfold findBegin findEnd
    rw [if_pos he, if_pos he]
    exact ⟨rfl, rfl⟩
  · by_cases he : isEmpty c = true
    · have hsz : size c = 0 := by simpa [isEmpty] using he
      rw [live_eq_nil_of_size_eq_zero hsz]
      simp
    · have he' : isEmpty c = false := by simpa using he
      simp only [findBegin, findEnd, he', Bool.false_eq_true, if_false, Bool.false_and]
      exact bracket_filter k hs
  · constructor
    · simp only [findBegin, hne, Bool.false_eq_true, if_false, Bool.true_and]
      by_cases h0 : lowerBoundIdx (live c) k = 0
      · simp [h0]
      · simp [h0]
    · simp only [findEnd, hne, Bool.false_eq_true, if_false, Bool.true_and]
      by_cases h0 : upperBoundIdx (live c) k = size c
      · simp [h0]
      · simp [h0]

/-- Claim C6, witness: the theorem applied to a concrete store with a
duplicated key and to the empty store. -/
theorem claim_C6_witness :
    ((live sampleStore).drop (findBegin sampleStore 2 false)).take
        (findEnd sampleStore 2 false - findBegin sampleStore 2 false)
      = (live sampleStore).filter (fun p => p.sortKey == 2) ∧
    (findBegin init 2 true = size init ∧ findEnd init 2 true = size init) := by
  have h := claim_C6 sampleStore 2 (by decide)
  have h0 := claim_C6 init 2 (by decide)
  exact ⟨h.2.1, h0.1 (by decide) true⟩

/-- Claim C7: squeezing, for every combination of the two flags, leaves the
logical live sequence and the size unchanged (and does not touch the
auto-squeeze flag); it only affects slack, the growth iteration counter and
unused capacity. -/
theorem claim_C7 (c : QCPDataContainer) (b1 b2 : Bool) :
    live (squeeze c b1 b2) = live c ∧
    size (squeeze c b1 b2) = size c ∧
    (squeeze c b1 b2).mAutoSqueeze = c.mAutoSqueeze :=
  ⟨squeeze_live c b1 b2, squeeze_size c b1 b2, squeeze_flag c b1 b2⟩

/-- Claim C8, counterexample: on the fresh container, preallocateGrow(1)
produces a front slack of 5 = 1 + (2^4 - 12); a schedule with floor 16, as
the claim states it, would force a front slack of at least 17. -/
theorem claim_C8_counterexample :
    (preallocateGrow init 1).mPreallocSize = 5 ∧
    (preallocateGrow init 1).mPreallocSize < 1 + 16 :=
  ⟨by decide, by decide⟩

/-- Claim C8, amended: if the current front slack is at least the requested
minimum m, preallocateGrow(m) changes nothing; otherwise the new front
slack equals m + schedule(growthIteration) with
schedule(g) = 2^(min(g+4,15)) - 12 — the power-of-two term doubles from a
floor of 16 up to a ceiling of 32768, clamped, with 12 subtracted, so the
schedule ranges from 4 to 32768 - 12 — and the growth iteration counter is
incremented by one. -/
theorem claim_C8 (c : QCPDataContainer) (m : Nat) :
    (m ≤ c.mPreallocSize → preallocateGrow c m = c) ∧
    (c.mPreallocSize < m →
      (preallocateGrow c m).mPreallocSize = m + preallocSchedule c.mPreallocIteration ∧
      (preallocateGrow c m).mPreallocIteration = c.mPreallocIteration + 1 ∧
      preallocSchedule c.mPreallocIteration
        = 2 ^ (min (c.mPreallocIteration + 4) 15) - 12 ∧
      4 ≤ preallocSchedule c.mPreallocIteration ∧
      preallocSchedule c.mPreallocIteration ≤ 2 ^ 15 - 12) := by
  constructor
  · intro h
    unfold preallocateGrow
    rw [if_pos h]
  · intro h
    unfold preallocateGrow
    rw [if_neg (by omega)]
    refine ⟨rfl, rfl, ?_, preallocSchedule_ge _, ?_⟩
    · unfold preallocSchedule
      have hmm : max 4 (min (c.mPreallocIteration + 4) 15) = min (c.mPreallocIteration + 4) 15 := by
        omega
      rw [hmm]
    · unfold preallocSchedule
      have hle : 2 ^ (max 4 (min (c.mPreallocIteration + 4) 15)) ≤ 2 ^ 15 :=
        Nat.pow_le_pow_right (by omega) (by omega)
      omega

/-- Claim C8, witness: the amended theorem applied to the fresh container
(growth) and to a container whose slack already suffices (no-op). -/
theorem claim_C8_witness :
    (preallocateGrow init 1).mPreallocSize = 1 + preallocSchedule 0 ∧
    (preallocateGrow init 1).mPreallocIteration = 1 ∧
    preallocateGrow sampleStore 0 = sampleStore := by
  have h := (claim_C8 init 1).2 (by decide)
  have h2 := (claim_C8 sampleStore 0).1 (by decide)
  exact ⟨h.1, h.2.1, h2⟩

/-- Claim C9, counterexample: on the one-element store, at(-1) returns the
begin iterator (offset 0), not the end sentinel (offset 1 = size), so an
out-of-bounds negative index does not yield the end sentinel. -/
theorem claim_C9_counterexample :
    atIndex (setVector init [⟨5, 50⟩] true) (-1) = 0 ∧
    size (setVector init [⟨5, 50⟩] true) = 1 ∧
    atIndex (setVector init [⟨5, 50⟩] true) (-1)
      ≠ size (setVector init [⟨5, 50⟩] true) :=
  ⟨by decide, by decide, by decide⟩

/-- Claim C9, amended: at(i) clamps i into [0, size()] and never fails: a
negative index yields the begin iterator (offset 0), an index of at least
size() yields the end sentinel, and an in-bounds index yields the iterator
to the i-th live element. -/
theorem claim_C9 (c : QCPDataContainer) (i : Int) :
    (i < 0 → atIndex c i = 0) ∧
    ((size c : Int) ≤ i → atIndex c i = size c) ∧
    (0 ≤ i → i < (size c : Int) → atIndex c i = i.toNat) := by
  unfold atIndex
  refine ⟨fun h => ?_, fun h => ?_, fun h1 h2 => ?_⟩ <;> omega

/-- Claim C9, witness: the amended theorem applied at concrete indices. -/
theorem claim_C9_witness :
    atIndex sampleStore (-3) = 0 ∧
    atIndex sampleStore 9 = size sampleStore ∧
    atIndex sampleStore 2 = 2 := by
  have h := claim_C9 sampleStore (-3)
  have h2 := claim_C9 sampleStore 9
  have h3 := claim_C9 sampleStore 2
  exact ⟨h.1 (by decide), h2.2.1 (by decide), h3.2.2 (by decide) (by decide)⟩

/-- Claim C10: single-key removal erases exactly the first live element
whose key is exactly equal to k (as eraseP of an exact match); with no
exact match the live sequence is unchanged; the removed element is folded
into the front slack without touching the buffer when it is the first live
element, and physically erased at the lower-bound position otherwise. -/
theorem claim_C10 (c : QCPDataContainer) (k : Int) (hs : SortedLive c) :
    live (removeKey c k) = (live c).eraseP (fun p => p.sortKey == k) ∧
    ((∀ p ∈ live c, p.sortKey ≠ k) → live (removeKey c k) = live c) ∧
    removeKey c k = autoSqueezeCheck (removeKeyMid c k) ∧
    (live c ≠ [] → ((live c).headD default).sortKey = k →
      (removeKeyMid c k).mData = c.mData ∧
      (removeKeyMid c k).mPreallocSize = c.mPreallocSize + 1) ∧
    ((∃ p ∈ live c, p.sortKey = k) → ((live c).headD default).sortKey ≠ k →
      (removeKeyMid c k).mPreallocSize = c.mPreallocSize ∧
      (removeKeyMid c k).mData
        = c.mData.eraseIdx (c.mPreallocSize + lowerBoundIdx (live c) k)) := by
  refine ⟨removeKey_live k hs, fun hno => ?_, rfl,
    fun hne hhead => removeKeyMid_fold hne hhead,
    fun hex hhead => removeKeyMid_erase hs hex hhead⟩
  rw [removeKey_live k hs]
  exact List.eraseP_of_forall_not fun p hp => by simpa using hno p hp

/-- Claim C10, witness: the theorem applied to a concrete store, exercising
the no-match case and the physical-erasure case. -/
theorem claim_C10_witness :
    live (removeKey sampleStore 3) = live sampleStore ∧
    (removeKeyMid sampleStore 2).mData
      = sampleStore.mData.eraseIdx
          (sampleStore.mPreallocSize + lowerBoundIdx (live sampleStore) 2) := by
  have h := claim_C10 sampleStore 3 (by decide)
  have h2 := claim_C10 sampleStore 2 (by decide)
  exact ⟨h.2.1 (by decide), (h2.2.2.2.2 (by decide) (by decide)).2⟩

end QCP
